import Mathlib

/-!
Verification of the octreelib recursive octree engine.

The Python sources embedded here are `octreelib/octree/octree.py`
(`OctreeNode`, `Octree`), `octreelib/octree/octree_base.py`
(`OctreeNodeBase.__init__`), `octreelib/octree/multi_pose_octree.py`
(`MultiPoseOctreeNode`) and `octreelib/grid/grid_base.py` (`GridBase`).
Coordinates are modelled as rationals (the Python code computes with
floats but every operation used — addition and halving of dyadic
edge lengths, comparisons — is exact on the inputs of interest).
-/

namespace Octreelib

/-- A 3-D point: three coordinates, as in `np.array([x, y, z])`. -/
structure Pt where
  x : ℚ
  y : ℚ
  z : ℚ
deriving DecidableEq, Repr

instance : Add Pt := ⟨fun a b => ⟨a.x + b.x, a.y + b.y, a.z + b.z⟩⟩

theorem Pt.add_def (a b : Pt) : a + b = ⟨a.x + b.x, a.y + b.y, a.z + b.z⟩ := rfl

/-- A box given as its min and max corners, as in
`OctreeNode.bounding_box = (corner, corner + ones(3) * edge_length)`. -/
def BoxQ := Pt × Pt

/-- Modelled from the spec: the point-in-box containment predicate
(`point_is_inside_box` in `octreelib/internal/geometry.py`, a file absent
from `src/`). Per spec §3, the min faces are inclusive and the max faces
exclusive, applied uniformly. -/
def point_is_inside_box (p : Pt) (b : Pt × Pt) : Bool :=
  (decide (b.1.x ≤ p.x) && decide (p.x < b.2.x)) &&
  (decide (b.1.y ≤ p.y) && decide (p.y < b.2.y)) &&
  (decide (b.1.z ≤ p.z) && decide (p.z < b.2.z))

/-- `OctreeNode` (octree.py): corner, edge length, local point list,
`has_children` flag and children list.  A freshly constructed node
(`OctreeNodeBase.__init__`) is `mk c e [] false []`. -/
inductive Node where
  | mk (corner : Pt) (edge_length : ℚ) (points : List Pt)
       (has_children : Bool) (children : List Node)

namespace Node

def corner : Node → Pt
  | mk c _ _ _ _ => c

def edge_length : Node → ℚ
  | mk _ e _ _ _ => e

def points : Node → List Pt
  | mk _ _ ps _ _ => ps

def has_children : Node → Bool
  | mk _ _ _ hc _ => hc

def children : Node → List Node
  | mk _ _ _ _ ch => ch

/-- `OctreeNode.bounding_box`: `(corner, corner + np.ones(3) * edge_length)`. -/
def bounding_box (t : Node) : Pt × Pt :=
  (t.corner, t.corner + ⟨t.edge_length, t.edge_length, t.edge_length⟩)

/-- The eight fresh children built in `OctreeNode.subdivide`:
`itertools.product([0, child_edge_length], repeat=3)` offsets added to the
corner, each child a freshly constructed node of half the edge length. -/
def standardChildren (c : Pt) (e : ℚ) : List Node :=
  let h := e / 2
  [ mk (c + ⟨0, 0, 0⟩) h [] false [],
    mk (c + ⟨0, 0, h⟩) h [] false [],
    mk (c + ⟨0, h, 0⟩) h [] false [],
    mk (c + ⟨0, h, h⟩) h [] false [],
    mk (c + ⟨h, 0, 0⟩) h [] false [],
    mk (c + ⟨h, 0, h⟩) h [] false [],
    mk (c + ⟨h, h, 0⟩) h [] false [],
    mk (c + ⟨h, h, h⟩) h [] false [] ]

/-- `OctreeNode.n_points`: sum over children if internal, else the local
point count. -/
def n_points : Node → Nat
  | mk _ _ ps hc ch =>
    if hc then (ch.attach.map (fun x => n_points x.1)).sum else ps.length
termination_by t => sizeOf t
decreasing_by
  have := List.sizeOf_lt_of_mem x.2
  simp only [mk.sizeOf_spec]
  omega

/-- `OctreeNode.n_nodes` exactly as written in octree.py:
`len(self.children) if self.has_children else 0` (not recursive). -/
def n_nodes : Node → Nat
  | mk _ _ _ hc ch => if hc then ch.length else 0

/-- `OctreeNode.n_leafs`: sum over children if internal, else 1. -/
def n_leafs : Node → Nat
  | mk _ _ _ hc ch =>
    if hc then (ch.attach.map (fun x => n_leafs x.1)).sum else 1
termination_by t => sizeOf t
decreasing_by
  have := List.sizeOf_lt_of_mem x.2
  simp only [mk.sizeOf_spec]
  omega

/-- `OctreeNode.get_points`: concatenation of children's points if
internal, else the local points. -/
def get_points : Node → List Pt
  | mk _ _ ps hc ch =>
    if hc then (ch.attach.map (fun x => get_points x.1)).flatten else ps
termination_by t => sizeOf t
decreasing_by
  have := List.sizeOf_lt_of_mem x.2
  simp only [mk.sizeOf_spec]
  omega

/-- The body of the inner loop of `OctreeNode.insert_points` for one point:
for every child whose bounding box contains the point, recursively insert
the singleton; a leaf extends its local list. -/
def insertPoint : Node → Pt → Node
  | mk c e ps hc ch, p =>
    if hc then
      mk c e ps hc (ch.attach.map (fun x =>
        if point_is_inside_box p x.1.bounding_box then insertPoint x.1 p else x.1))
    else
      mk c e (ps ++ [p]) hc ch
termination_by t _ => sizeOf t
decreasing_by
  have := List.sizeOf_lt_of_mem x.2
  simp only [mk.sizeOf_spec]
  omega

/-- `OctreeNode.insert_points`: if internal, route every point in order to
the children containing it; if a leaf, extend the local point list. -/
def insert_points (t : Node) (ps : List Pt) : Node :=
  if t.has_children then ps.foldl insertPoint t
  else mk t.corner t.edge_length (t.points ++ ps) t.has_children t.children

end Node

/-- A list of subdivision / filtering criteria: predicates over a point
cloud, as in `List[Callable[[PointCloud], bool]]`. -/
def Criteria := List (List Pt → Bool)

mutual

/-- `OctreeNode.subdivide`, with a fuel bound on the recursion depth
(returns `none` when the fuel runs out; the Python recursion terminates
exactly when some fuel suffices).  If ANY criterion holds on the local
points: build the eight standard children, set `has_children`, re-insert
a copy of the local points (now routed into the children), clear the
local points, then subdivide every child with the same criteria. -/
def Node.subdivideF : Nat → Criteria → Node → Option Node
  | 0, _, _ => none
  | fuel + 1, crit, t =>
    if crit.any (fun criterion => criterion t.points) then
      let kids := Node.standardChildren t.corner t.edge_length
      let t1 := Node.mk t.corner t.edge_length t.points true kids
      let t2 := t1.insert_points t.points
      let t3 := Node.mk t2.corner t2.edge_length [] t2.has_children t2.children
      (Node.subdivideChildren fuel crit t3.children).map
        (fun cs => Node.mk t3.corner t3.edge_length t3.points t3.has_children cs)
    else
      some t
termination_by fuel _ _ => (fuel, 0)

/-- The `for child in self.children: child.subdivide(...)` loop. -/
def Node.subdivideChildren : Nat → Criteria → List Node → Option (List Node)
  | _, _, [] => some []
  | fuel, crit, c :: cs =>
    match Node.subdivideF fuel crit c, Node.subdivideChildren fuel crit cs with
    | some c', some cs' => some (c' :: cs')
    | _, _ => none
termination_by fuel _ l => (fuel, l.length + 1)

end

/-- `OctreeNode.filter`: recurse into children then collapse to an empty
leaf when every (filtered) child holds zero points; on a leaf, keep the
points only when ALL criteria hold, else drop them. -/
def Node.filter (crit : Criteria) : Node → Node
  | .mk c e ps hc ch =>
    if hc then
      let cs := ch.attach.map (fun x => Node.filter crit x.1)
      if cs.all (fun child => child.n_points == 0) then
        Node.mk c e ps false []
      else
        Node.mk c e ps hc cs
    else if crit.all (fun criterion => criterion ps) then
      Node.mk c e ps hc ch
    else
      Node.mk c e [] hc ch
termination_by t => sizeOf t
decreasing_by
  have := List.sizeOf_lt_of_mem x.2
  simp only [Node.mk.sizeOf_spec]
  omega

/-- `OctreeNode.map_leaf_points`: recurse on internal nodes; on a
non-empty leaf replace the points by `function(points)`. -/
def Node.map_leaf_points (f : List Pt → List Pt) : Node → Node
  | .mk c e ps hc ch =>
    if hc then
      Node.mk c e ps hc (ch.attach.map (fun x => Node.map_leaf_points f x.1))
    else if ps.isEmpty then
      Node.mk c e ps hc ch
    else
      Node.mk c e (f ps) hc ch
termination_by t => sizeOf t
decreasing_by
  have := List.sizeOf_lt_of_mem x.2
  simp only [Node.mk.sizeOf_spec]
  omega

/-- `OctreeConfigBase`: carries only the debug flag. -/
structure OctreeConfig where
  debug : Bool := true

/-- The `Octree` facade: configuration, corner, edge length and a root
node; construction (`OctreeBase.__init__`) makes a fresh leaf root. -/
structure Octree where
  config : OctreeConfig
  corner : Pt
  edge_length : ℚ
  root : Node

/-- `OctreeBase.__init__`: the root is a freshly constructed node over
the caller-supplied corner and edge length. -/
def Octree.new (cfg : OctreeConfig) (c : Pt) (e : ℚ) : Octree :=
  ⟨cfg, c, e, Node.mk c e [] false []⟩

def Octree.get_points (o : Octree) : List Pt := o.root.get_points

def Octree.n_points (o : Octree) : Nat := o.root.n_points

def Octree.insert_points (o : Octree) (ps : List Pt) : Octree :=
  ⟨o.config, o.corner, o.edge_length, o.root.insert_points ps⟩

def Octree.filter (o : Octree) (crit : Criteria) : Octree :=
  ⟨o.config, o.corner, o.edge_length, Node.filter crit o.root⟩

/-- A pose-tagged point: the fourth column of a `PosePointCloud` row
holds the pose number. -/
structure PPoint where
  point : Pt
  pose : ℤ
deriving DecidableEq, Repr

/-- Modelled from the spec: `PosePointCloud.without_poses`
(`octreelib/internal/point.py` is absent from `src/`) strips the pose
column, keeping the coordinate rows in order. -/
def withoutPoses (ps : List PPoint) : List Pt := ps.map PPoint.point

/-- Modelled from the spec: `PointCloud.with_pose(pose)` tags every row
of a raw cloud with the given pose number. -/
def withPose (q : ℤ) (ps : List Pt) : List PPoint := ps.map (fun p => ⟨p, q⟩)

/-- `_filter_by_pose_number` (multi_pose_octree.py):
`points[points[:, 3] == pose_number]` — the subsequence of rows whose
pose column equals the requested pose, in order. -/
def filterByPose (q : ℤ) (ps : List PPoint) : List PPoint :=
  ps.filter (fun r => r.pose == q)

/-- The distinct pose numbers occurring in a cloud
(`set(self._points.poses())`), enumerated without duplicates; the Python
set iteration order is arbitrary, modelled as first-occurrence order. -/
def dedupFirst : List ℤ → List ℤ
  | [] => []
  | q :: qs => q :: dedupFirst (qs.filter (fun r => r ≠ q))
termination_by l => l.length
decreasing_by
  have := List.length_filter_le (fun r => decide (r ≠ q)) qs
  simp only [List.length_cons]
  omega

/-- `MultiPoseOctreeNode`: same structure as `OctreeNode`, with
pose-tagged points. -/
inductive MPNode where
  | mk (corner : Pt) (edge_length : ℚ) (points : List PPoint)
       (has_children : Bool) (children : List MPNode)

namespace MPNode

def corner : MPNode → Pt
  | mk c _ _ _ _ => c

def edge_length : MPNode → ℚ
  | mk _ e _ _ _ => e

def points : MPNode → List PPoint
  | mk _ _ ps _ _ => ps

def has_children : MPNode → Bool
  | mk _ _ _ hc _ => hc

def children : MPNode → List MPNode
  | mk _ _ _ _ ch => ch

def bounding_box (t : MPNode) : Pt × Pt :=
  (t.corner, t.corner + ⟨t.edge_length, t.edge_length, t.edge_length⟩)

/-- The eight fresh `MultiPoseOctreeNode` children built in
`MultiPoseOctreeNode.subdivide` (same offsets as the base variant). -/
def standardChildren (c : Pt) (e : ℚ) : List MPNode :=
  let h := e / 2
  [ mk (c + ⟨0, 0, 0⟩) h [] false [],
    mk (c + ⟨0, 0, h⟩) h [] false [],
    mk (c + ⟨0, h, 0⟩) h [] false [],
    mk (c + ⟨0, h, h⟩) h [] false [],
    mk (c + ⟨h, 0, 0⟩) h [] false [],
    mk (c + ⟨h, 0, h⟩) h [] false [],
    mk (c + ⟨h, h, 0⟩) h [] false [],
    mk (c + ⟨h, h, h⟩) h [] false [] ]

/-- `MultiPoseOctreeNode._insert_point`: route by the untagged
coordinates (`point.without_pose()`); the pose tag travels along.  A
leaf extends its tagged point list. -/
def insertPoint : MPNode → PPoint → MPNode
  | mk c e ps hc ch, p =>
    if hc then
      mk c e ps hc (ch.attach.map (fun x =>
        if point_is_inside_box p.point x.1.bounding_box then insertPoint x.1 p else x.1))
    else
      mk c e (ps ++ [p]) hc ch
termination_by t _ => sizeOf t
decreasing_by
  have := List.sizeOf_lt_of_mem x.2
  simp only [mk.sizeOf_spec]
  omega

/-- `MultiPoseOctreeNode.insert_points`. -/
def insert_points (t : MPNode) (ps : List PPoint) : MPNode :=
  if t.has_children then ps.foldl insertPoint t
  else mk t.corner t.edge_length (t.points ++ ps) t.has_children t.children

/-- `MultiPoseOctreeNode.n_points_for_pose`. -/
def n_points_for_pose (q : ℤ) : MPNode → Nat
  | mk _ _ ps hc ch =>
    if hc then (ch.attach.map (fun x => n_points_for_pose q x.1)).sum
    else (filterByPose q ps).length
termination_by t => sizeOf t
decreasing_by
  have := List.sizeOf_lt_of_mem x.2
  simp only [mk.sizeOf_spec]
  omega

/-- `MultiPoseOctreeNode.map_leaf_points`: on a non-empty leaf, apply the
function to each pose group with the tags stripped, re-tag the result
with that pose and concatenate the groups. -/
def map_leaf_points (f : List Pt → List Pt) : MPNode → MPNode
  | mk c e ps hc ch =>
    if hc then
      mk c e ps hc (ch.attach.map (fun x => map_leaf_points f x.1))
    else if ps.isEmpty then
      mk c e ps hc ch
    else
      let newPts := (dedupFirst (ps.map PPoint.pose)).foldl
        (fun acc q =>
          let grp := filterByPose q ps
          if grp.isEmpty then acc
          else acc ++ withPose q (f (withoutPoses grp))) []
      mk c e newPts hc ch
termination_by t => sizeOf t
decreasing_by
  have := List.sizeOf_lt_of_mem x.2
  simp only [mk.sizeOf_spec]
  omega

end MPNode

mutual

/-- `MultiPoseOctreeNode.subdivide`, fuel-bounded as for the base
variant: the criteria are evaluated once per node on the whole local
point set with the poses stripped
(`criterion(self._points.without_poses())`). -/
def MPNode.subdivideF : Nat → Criteria → MPNode → Option MPNode
  | 0, _, _ => none
  | fuel + 1, crit, t =>
    if crit.any (fun criterion => criterion (withoutPoses t.points)) then
      let kids := MPNode.standardChildren t.corner t.edge_length
      let t1 := MPNode.mk t.corner t.edge_length t.points true kids
      let t2 := t1.insert_points t.points
      let t3 := MPNode.mk t2.corner t2.edge_length [] t2.has_children t2.children
      (MPNode.subdivideChildren fuel crit t3.children).map
        (fun cs => MPNode.mk t3.corner t3.edge_length t3.points t3.has_children cs)
    else
      some t
termination_by fuel _ _ => (fuel, 0)

/-- The child-subdivision loop of the multi-pose variant. -/
def MPNode.subdivideChildren : Nat → Criteria → List MPNode → Option (List MPNode)
  | _, _, [] => some []
  | fuel, crit, c :: cs =>
    match MPNode.subdivideF fuel crit c, MPNode.subdivideChildren fuel crit cs with
    | some c', some cs' => some (c' :: cs')
    | _, _ => none
termination_by fuel _ l => (fuel, l.length + 1)

end

/-- The class-level state of `GridBase` (grid_base.py):
`octrees: Dict[int, T] = {}` is declared on the class, so there is ONE
dictionary object shared by the class and (absent an instance attribute
of the same name) by all of its instances. -/
structure GridBaseClassState where
  octrees : List (ℤ × Octree)

/-- A `GridBase` instance: `__init__` assigns only `grid_config`; it
never creates an instance-level `octrees` attribute. -/
structure GridBaseInstance where
  grid_config : OctreeConfig

/-- Python attribute lookup for `self.octrees` on a `GridBase` instance:
no instance attribute exists, so it falls back to the shared class-level
dictionary, whichever instance performs the read. -/
def GridBase.octreesOf (_self : GridBaseInstance) (cls : GridBaseClassState) :
    List (ℤ × Octree) :=
  cls.octrees

/-- Modelled from the spec: `Grid.insert_points` (grid.py, absent from
`src/`) lazily creates an octree for an unseen key and stores it with a
dictionary item assignment `self.octrees[pos] = ...`; the item
assignment mutates the shared class-level dictionary in place. -/
def GridBase.storeOctree (_self : GridBaseInstance) (cls : GridBaseClassState)
    (k : ℤ) (o : Octree) : GridBaseClassState :=
  ⟨(k, o) :: cls.octrees.filter (fun kv => kv.1 ≠ k)⟩

/-- Dictionary lookup `self.octrees[pos]`. -/
def GridBase.findOctree (self : GridBaseInstance) (cls : GridBaseClassState)
    (k : ℤ) : Option Octree :=
  ((GridBase.octreesOf self cls).find? (fun kv => kv.1 == k)).map Prod.snd

theorem map_attach_eq (l : List α) (f : α → β) :
    l.attach.map (fun x => f x.1) = l.map f := by
  simp

@[simp] theorem Node.corner_mk (c e ps hc ch) : (Node.mk c e ps hc ch).corner = c := rfl

@[simp] theorem Node.edge_length_mk (c e ps hc ch) :
    (Node.mk c e ps hc ch).edge_length = e := rfl

@[simp] theorem Node.points_mk (c e ps hc ch) : (Node.mk c e ps hc ch).points = ps := rfl

@[simp] theorem Node.has_children_mk (c e ps hc ch) :
    (Node.mk c e ps hc ch).has_children = hc := rfl

@[simp] theorem Node.children_mk (c e ps hc ch) :
    (Node.mk c e ps hc ch).children = ch := rfl

theorem Node.n_points_mk (c e ps hc ch) :
    (Node.mk c e ps hc ch).n_points =
      if hc then (ch.map Node.n_points).sum else ps.length := by
  rw [Node.n_points]
  simp [map_attach_eq]

theorem Node.get_points_mk (c e ps hc ch) :
    (Node.mk c e ps hc ch).get_points =
      if hc then (ch.map Node.get_points).flatten else ps := by
  rw [Node.get_points]
  simp [map_attach_eq]

theorem Node.insertPoint_mk (c e ps hc ch p) :
    (Node.mk c e ps hc ch).insertPoint p =
      if hc then
        Node.mk c e ps hc (ch.map (fun x =>
          if point_is_inside_box p x.bounding_box then x.insertPoint p else x))
      else Node.mk c e (ps ++ [p]) hc ch := by
  rw [Node.insertPoint]
  by_cases h : hc = true
  · simp only [h, if_true, Node.mk.injEq, true_and]
    exact map_attach_eq ch
      (fun x => if point_is_inside_box p x.bounding_box then x.insertPoint p else x)
  · simp [h]

theorem Node.filter_mk (crit c e ps hc ch) :
    Node.filter crit (Node.mk c e ps hc ch) =
      if hc then
        let cs := ch.map (Node.filter crit)
        if cs.all (fun child => child.n_points == 0) then Node.mk c e ps false []
        else Node.mk c e ps hc cs
      else if crit.all (fun criterion => criterion ps) then Node.mk c e ps hc ch
      else Node.mk c e [] hc ch := by
  rw [Node.filter]
  simp only [map_attach_eq]

theorem Node.map_leaf_points_mk (f c e ps hc ch) :
    Node.map_leaf_points f (Node.mk c e ps hc ch) =
      if hc then Node.mk c e ps hc (ch.map (Node.map_leaf_points f))
      else if ps.isEmpty then Node.mk c e ps hc ch
      else Node.mk c e (f ps) hc ch := by
  rw [Node.map_leaf_points]
  simp only [map_attach_eq]

@[simp] theorem MPNode.mp_corner_mk (c e ps hc ch) : (MPNode.mk c e ps hc ch).corner = c := rfl

@[simp] theorem MPNode.mp_edge_length_mk (c e ps hc ch) :
    (MPNode.mk c e ps hc ch).edge_length = e := rfl

@[simp] theorem MPNode.mp_points_mk (c e ps hc ch) : (MPNode.mk c e ps hc ch).points = ps := rfl

@[simp] theorem MPNode.mp_has_children_mk (c e ps hc ch) :
    (MPNode.mk c e ps hc ch).has_children = hc := rfl

@[simp] theorem MPNode.mp_children_mk (c e ps hc ch) :
    (MPNode.mk c e ps hc ch).children = ch := rfl

theorem MPNode.mp_insertPoint_mk (c e ps hc ch p) :
    (MPNode.mk c e ps hc ch).insertPoint p =
      if hc then
        MPNode.mk c e ps hc (ch.map (fun x =>
          if point_is_inside_box p.point x.bounding_box then x.insertPoint p else x))
      else MPNode.mk c e (ps ++ [p]) hc ch := by
  rw [MPNode.insertPoint]
  by_cases h : hc = true
  · simp only [h, if_true, MPNode.mk.injEq, true_and]
    exact map_attach_eq ch
      (fun x => if point_is_inside_box p.point x.bounding_box then x.insertPoint p else x)
  · simp [h]

theorem MPNode.n_points_for_pose_mk (q c e ps hc ch) :
    MPNode.n_points_for_pose q (MPNode.mk c e ps hc ch) =
      if hc then (ch.map (MPNode.n_points_for_pose q)).sum
      else (filterByPose q ps).length := by
  rw [MPNode.n_points_for_pose]
  simp [map_attach_eq]

theorem MPNode.mp_map_leaf_points_mk (f c e ps hc ch) :
    MPNode.map_leaf_points f (MPNode.mk c e ps hc ch) =
      if hc then MPNode.mk c e ps hc (ch.map (MPNode.map_leaf_points f))
      else if ps.isEmpty then MPNode.mk c e ps hc ch
      else
        MPNode.mk c e
          ((dedupFirst (ps.map PPoint.pose)).foldl
            (fun acc q =>
              let grp := filterByPose q ps
              if grp.isEmpty then acc
              else acc ++ withPose q (f (withoutPoses grp))) [])
          hc ch := by
  rw [MPNode.map_leaf_points]
  simp only [map_attach_eq]

/-- Structural induction for `Node` with the child memberships exposed. -/
theorem Node.inductionOn {motive : Node → Prop}
    (h : ∀ c e ps hc ch, (∀ x ∈ ch, motive x) → motive (Node.mk c e ps hc ch)) :
    ∀ t, motive t
  | Node.mk c e ps hc ch => h c e ps hc ch (fun x _ => Node.inductionOn h x)
termination_by t => sizeOf t
decreasing_by
  rename_i hx
  have := List.sizeOf_lt_of_mem hx
  simp only [Node.mk.sizeOf_spec]
  omega

/-- The structural invariant of spec §3: `has_children == (children.size
== 8)` and `has_children` implies the local point set is empty, at every
node of the tree. -/
def Node.structInv : Node → Prop
  | Node.mk _ _ ps hc ch =>
    (hc = true ↔ ch.length = 8) ∧ (hc = true → ps = []) ∧ ∀ x ∈ ch, Node.structInv x
termination_by t => sizeOf t
decreasing_by
  rename_i hx
  have := List.sizeOf_lt_of_mem hx
  simp only [Node.mk.sizeOf_spec]
  omega

/-- The trees reachable from a freshly constructed node by any sequence
of `insert_points`, (terminating) `subdivide`, `filter` and
`map_leaf_points` calls. -/
inductive Node.Reachable : Node → Prop where
  | init (c : Pt) (e : ℚ) : Node.Reachable (Node.mk c e [] false [])
  | insert {t : Node} (ps : List Pt) :
      Node.Reachable t → Node.Reachable (t.insert_points ps)
  | subdiv {t t' : Node} (fuel : Nat) (crit : Criteria) :
      Node.Reachable t → Node.subdivideF fuel crit t = some t' → Node.Reachable t'
  | filt {t : Node} (crit : Criteria) :
      Node.Reachable t → Node.Reachable (Node.filter crit t)
  | mapl {t : Node} (f : List Pt → List Pt) :
      Node.Reachable t → Node.Reachable (Node.map_leaf_points f t)

theorem Node.structInv_mk (c e ps hc ch) :
    (Node.mk c e ps hc ch).structInv ↔
      ((hc = true ↔ ch.length = 8) ∧ (hc = true → ps = []) ∧ ∀ x ∈ ch, x.structInv) := by
  rw [Node.structInv]

/-- C8: a freshly constructed octree returns an empty cloud from
`get_points` and `0` from `n_points`; both queries are total. -/
theorem Octree.fresh_get_points_empty_n_points_zero (cfg : OctreeConfig) (c : Pt) (e : ℚ) :
    (Octree.new cfg c e).get_points = [] ∧ (Octree.new cfg c e).n_points = 0 := by
  constructor
  · simp [Octree.new, Octree.get_points, Node.get_points_mk]
  · simp [Octree.new, Octree.n_points, Node.n_points_mk]

/-- C5 (code bug evidence): `OctreeNode.n_nodes` as implemented is not
the recursive structural count — a single-leaf tree reports `0` (the
claim says `1`) and a root subdivided once into 8 leaves reports `8`
(the claim says `9`). -/
theorem Node.n_nodes_not_recursive_count :
    (Node.mk ⟨0, 0, 0⟩ 1 [] false []).n_nodes = 0 ∧
      (Node.mk ⟨0, 0, 0⟩ 2 [] true (Node.standardChildren ⟨0, 0, 0⟩ 2)).n_nodes = 8 := by
  exact ⟨rfl, rfl⟩

/-- C9 (code bug evidence): `GridBase.octrees` is a class-level mutable
default, so an octree stored through one instance is observable through
a distinct instance. -/
theorem GridBase.octrees_shared_across_instances :
    (⟨⟨true⟩⟩ : GridBaseInstance) ≠ (⟨⟨false⟩⟩ : GridBaseInstance) ∧
      GridBase.findOctree ⟨⟨false⟩⟩
        (GridBase.storeOctree ⟨⟨true⟩⟩ ⟨[]⟩ 0 (Octree.new ⟨true⟩ ⟨0, 0, 0⟩ 1)) 0 =
        some (Octree.new ⟨true⟩ ⟨0, 0, 0⟩ 1) := by
  constructor
  · intro h
    cases h
  · rfl

/-- C3 (counterexample): inserting the point `(5,5,5)`, far outside the
unit box at the origin, into a LEAF root stores it — `insert_points` on
a leaf appends with no geometric check, so `n_points` grows from 0 to 1
and `get_points` returns the outside point. -/
theorem Node.insert_outside_point_into_leaf_is_stored :
    point_is_inside_box ⟨5, 5, 5⟩ (Node.mk ⟨0, 0, 0⟩ 1 [] false []).bounding_box = false ∧
      (Node.mk ⟨0, 0, 0⟩ 1 [] false []).n_points = 0 ∧
      ((Node.mk ⟨0, 0, 0⟩ 1 [] false []).insert_points [⟨5, 5, 5⟩]).n_points = 1 ∧
      ((Node.mk ⟨0, 0, 0⟩ 1 [] false []).insert_points [⟨5, 5, 5⟩]).get_points =
        [⟨5, 5, 5⟩] := by
  refine ⟨by norm_num [point_is_inside_box, Node.bounding_box, Pt.add_def], ?_, ?_, ?_⟩
  · simp [Node.n_points_mk]
  · simp [Node.insert_points, Node.n_points_mk]
  · simp [Node.insert_points, Node.get_points_mk]

/-- One axis of the containment test: min-inclusive, max-exclusive. -/
def axisTest (lo len q : ℚ) : Bool := decide (lo ≤ q) && decide (q < lo + len)

theorem inside_cube_eq_axisTest (p k : Pt) (h : ℚ) :
    point_is_inside_box p (k, k + ⟨h, h, h⟩) =
      (axisTest k.x h p.x && axisTest k.y h p.y && axisTest k.z h p.z) := rfl

/-- Exactly one of the two half-intervals of a split axis contains a
coordinate of the parent interval. -/
theorem axisTest_split (lo h q : ℚ) (h0 : lo ≤ q) (h1 : q < lo + (h + h)) :
    (axisTest lo h q).toNat + (axisTest (lo + h) h q).toNat = 1 := by
  by_cases hc : q < lo + h
  · have hc' : ¬(lo + h ≤ q) := by linarith
    simp [axisTest, h0, hc, hc']
  · have h2 : lo + h ≤ q := by linarith
    have h3 : q < lo + h + h := by linarith
    simp [axisTest, hc, h2, h3]

theorem count8 (x0 x1 y0 y1 z0 z1 : Bool) :
    (x0 && y0 && z0).toNat + (x0 && y0 && z1).toNat + (x0 && y1 && z0).toNat +
      (x0 && y1 && z1).toNat + (x1 && y0 && z0).toNat + (x1 && y0 && z1).toNat +
      (x1 && y1 && z0).toNat + (x1 && y1 && z1).toNat =
      (x0.toNat + x1.toNat) * ((y0.toNat + y1.toNat) * (z0.toNat + z1.toNat)) := by
  cases x0 <;> cases x1 <;> cases y0 <;> cases y1 <;> cases z0 <;> cases z1 <;> rfl

/-- The geometric heart of point routing: a point inside a node's
half-open box lies inside the bounding box of exactly one of the eight
standard children. -/
theorem standardChildren_countP_one (c : Pt) (e : ℚ) (p : Pt)
    (hp : point_is_inside_box p (c, c + ⟨e, e, e⟩) = true) :
    (Node.standardChildren c e).countP
      (fun x => point_is_inside_box p x.bounding_box) = 1 := by
  simp only [point_is_inside_box, Bool.and_eq_true, decide_eq_true_eq] at hp
  obtain ⟨⟨⟨hx1, hx2⟩, hy1, hy2⟩, hz1, hz2⟩ := hp
  simp only [Pt.add_def] at hx2 hy2 hz2
  have he : e / 2 + e / 2 = e := by ring
  have hX := axisTest_split c.x (e / 2) p.x hx1 (by rw [he]; exact hx2)
  have hY := axisTest_split c.y (e / 2) p.y hy1 (by rw [he]; exact hy2)
  have hZ := axisTest_split c.z (e / 2) p.z hz1 (by rw [he]; exact hz2)
  have hbox : ∀ ox oy oz : ℚ,
      point_is_inside_box p
        (Node.mk (c + ⟨ox, oy, oz⟩) (e / 2) [] false []).bounding_box =
        (axisTest (c.x + ox) (e / 2) p.x && axisTest (c.y + oy) (e / 2) p.y &&
          axisTest (c.z + oz) (e / 2) p.z) := fun _ _ _ => rfl
  have hif : ∀ b : Bool, (if b = true then 1 else 0) = b.toNat := by
    intro b
    cases b <;> rfl
  simp only [Node.standardChildren, List.countP_cons, List.countP_nil]
  rw [hbox, hbox, hbox, hbox, hbox, hbox, hbox, hbox]
  simp only [add_zero, hif]
  have key := count8 (axisTest c.x (e / 2) p.x) (axisTest (c.x + e / 2) (e / 2) p.x)
    (axisTest c.y (e / 2) p.y) (axisTest (c.y + e / 2) (e / 2) p.y)
    (axisTest c.z (e / 2) p.z) (axisTest (c.z + e / 2) (e / 2) p.z)
  rw [hX, hY, hZ] at key
  simp only [one_mul] at key
  omega

theorem Node.eta (x : Node) :
    Node.mk x.corner x.edge_length x.points x.has_children x.children = x := by
  cases x
  rfl

/-- Inserting a point list into an internal node whose children are all
leaves appends to each child exactly the sublist of points inside that
child's bounding box, in order. -/
theorem Node.insert_points_internal_spec (c : Pt) (e : ℚ) (ps0 : List Pt)
    (ch : List Node) (ps : List Pt) (hleaf : ∀ x ∈ ch, x.has_children = false) :
    (Node.mk c e ps0 true ch).insert_points ps =
      Node.mk c e ps0 true (ch.map (fun x =>
        Node.mk x.corner x.edge_length
          (x.points ++ ps.filter (fun p => point_is_inside_box p x.bounding_box))
          x.has_children x.children)) := by
  induction ps generalizing ch with
  | nil =>
    simp only [Node.insert_points, Node.has_children_mk, if_true, List.foldl_nil,
      List.filter_nil, List.append_nil]
    rw [List.map_congr_left (fun x _ => Node.eta x)]
    simp
  | cons p rest ih =>
    have hstep : (Node.mk c e ps0 true ch).insert_points (p :: rest) =
        (Node.mk c e ps0 true
          (ch.map (fun x =>
            if point_is_inside_box p x.bounding_box then x.insertPoint p
            else x))).insert_points rest := by
      simp only [Node.insert_points, Node.has_children_mk, if_true, List.foldl_cons]
      rw [Node.insertPoint_mk]
      simp only [if_true]
    rw [hstep, ih]
    · simp only [List.map_map, Node.mk.injEq, true_and]
      apply List.map_congr_left
      intro x hx
      have hxl := hleaf x hx
      cases x with
      | mk xc xe xps xhc xch =>
        simp only [Node.has_children_mk] at hxl
        subst hxl
        by_cases htest : point_is_inside_box p (Node.mk xc xe xps false xch).bounding_box
        · simp only [Function.comp_apply, htest, if_true, Node.insertPoint_mk,
            if_false, Node.corner_mk, Node.edge_length_mk, Node.points_mk,
            Node.has_children_mk, Node.children_mk, Bool.false_eq_true]
          have hbb : (Node.mk xc xe (xps ++ [p]) false xch).bounding_box =
              (Node.mk xc xe xps false xch).bounding_box := rfl
          rw [hbb, List.filter_cons, if_pos htest, List.append_assoc]
          rfl
        · simp [htest]
    · intro x hx
      obtain ⟨y, hy, hxy⟩ := List.mem_map.mp hx
      by_cases htest : point_is_inside_box p y.bounding_box
      · rw [← hxy, if_pos htest]
        have hyl := hleaf y hy
        cases y with
        | mk yc ye yps yhc ych =>
          simp only [Node.has_children_mk] at hyl
          subst hyl
          rw [Node.insertPoint_mk]
          simp
      · rw [← hxy, if_neg htest]
        exact hleaf y hy

theorem sum_map_add {α} (l : List α) (f g : α → Nat) :
    (l.map (fun x => f x + g x)).sum = (l.map f).sum + (l.map g).sum := by
  induction l with
  | nil => rfl
  | cons a l ih =>
    simp only [List.map_cons, List.sum_cons, ih]
    omega

theorem countP_eq_sum_map {α} (l : List α) (q : α → Bool) :
    l.countP q = (l.map (fun x => if q x then 1 else 0)).sum := by
  induction l with
  | nil => rfl
  | cons a l ih =>
    simp only [List.countP_cons, List.map_cons, List.sum_cons, ih]
    omega

/-- Double counting: summing filtered sizes over boxes equals summing,
over the points, how many boxes accept each point. -/
theorem sum_length_filter_eq_sum_countP {α β} (xs : List α) (ys : List β) (r : β → α → Bool) :
    (xs.map (fun x => (ys.filter (fun y => r y x)).length)).sum =
      (ys.map (fun y => xs.countP (fun x => r y x))).sum := by
  induction ys with
  | nil =>
    simp only [List.filter_nil, List.length_nil, List.map_nil, List.sum_nil]
    induction xs with
    | nil => rfl
    | cons a l ih => simp [ih]
  | cons y rest ih =>
    simp only [List.map_cons, List.sum_cons, ← ih, List.filter_cons]
    rw [countP_eq_sum_map, ← sum_map_add]
    congr 1
    apply List.map_congr_left
    intro x _
    by_cases h : r y x
    · simp [h]
      omega
    · simp [h]

/-- Counting corollary: routing a list of points, each inside exactly
one child box, into an internal node with leaf children adds exactly the
list's length to the subtree point count. -/
theorem Node.n_points_insert_points_internal (c : Pt) (e : ℚ) (ps0 : List Pt)
    (ch : List Node) (ps : List Pt)
    (hleaf : ∀ x ∈ ch, x.has_children = false)
    (hcount : ∀ p ∈ ps,
      ch.countP (fun x => point_is_inside_box p x.bounding_box) = 1) :
    ((Node.mk c e ps0 true ch).insert_points ps).n_points =
      (ch.map Node.n_points).sum + ps.length := by
  rw [Node.insert_points_internal_spec c e ps0 ch ps hleaf, Node.n_points_mk]
  simp only [if_true, List.map_map]
  have hpoint : ∀ x ∈ ch,
      (Node.n_points ∘ fun x =>
        Node.mk x.corner x.edge_length
          (x.points ++ ps.filter (fun p => point_is_inside_box p x.bounding_box))
          x.has_children x.children) x =
      (fun x => Node.n_points x +
        (ps.filter (fun p => point_is_inside_box p x.bounding_box)).length) x := by
    intro x hx
    have hxl := hleaf x hx
    cases x with
    | mk xc xe xps xhc xch =>
      simp only [Node.has_children_mk] at hxl
      subst hxl
      simp [Node.n_points_mk]
  rw [List.map_congr_left hpoint, sum_map_add]
  congr 1
  rw [sum_length_filter_eq_sum_countP]
  rw [List.map_congr_left (fun p hp => hcount p hp)]
  induction ps with
  | nil => rfl
  | cons p rest ih =>
    simp_all
    omega

/-- If some criterion accepts the empty cloud, `subdivide` never
terminates on a node with an empty point set: the node keeps rebuilding
fresh empty children that satisfy the criterion again. -/
theorem Node.subdivideF_none_of_any_empty (crit : Criteria)
    (hany : crit.any (fun criterion => criterion []) = true) :
    ∀ fuel (t : Node), t.points = [] → Node.subdivideF fuel crit t = none := by
  intro fuel
  induction fuel with
  | zero =>
    intro t _
    rw [Node.subdivideF]
  | succ n ih =>
    intro t hpts
    rw [Node.subdivideF, hpts, hany]
    simp only [if_true]
    have hins : (Node.mk t.corner t.edge_length [] true
        (Node.standardChildren t.corner t.edge_length)).insert_points [] =
        Node.mk t.corner t.edge_length [] true
          (Node.standardChildren t.corner t.edge_length) := by
      simp [Node.insert_points]
    rw [hins]
    simp only [Node.corner_mk, Node.edge_length_mk, Node.points_mk,
      Node.has_children_mk, Node.children_mk]
    have hfirst : Node.subdivideF n crit
        (Node.mk (t.corner + ⟨0, 0, 0⟩) (t.edge_length / 2) [] false []) = none :=
      ih _ rfl
    simp only [Node.standardChildren]
    rw [Node.subdivideChildren, hfirst]
    rfl

theorem Node.standardChildren_leaves (c : Pt) (e : ℚ) :
    ∀ x ∈ Node.standardChildren c e, x.has_children = false ∧ x.points = [] := by
  intro x hx
  simp only [Node.standardChildren, List.mem_cons, List.not_mem_nil, or_false] at hx
  rcases hx with h | h | h | h | h | h | h | h <;> subst h <;> exact ⟨rfl, rfl⟩

theorem Node.standardChildren_children_nil (c : Pt) (e : ℚ) :
    ∀ x ∈ Node.standardChildren c e, x.children = [] := by
  intro x hx
  simp only [Node.standardChildren, List.mem_cons, List.not_mem_nil, or_false] at hx
  rcases hx with h | h | h | h | h | h | h | h <;> subst h <;> rfl

theorem Node.standardChildren_length (c : Pt) (e : ℚ) :
    (Node.standardChildren c e).length = 8 := rfl

theorem Node.standardChildren_n_points_zero (c : Pt) (e : ℚ) :
    ((Node.standardChildren c e).map Node.n_points).sum = 0 := by
  simp [Node.standardChildren, Node.n_points_mk]

/-- Mutual-induction core for point conservation under `subdivide`:
whenever the fuel suffices, the resulting tree holds exactly as many
points as before, both for a single node and for a child list. -/
theorem Node.n_points_subdivide_aux (fuel : Nat) :
    (∀ (crit : Criteria) (t t' : Node),
      (t.has_children = true → t.points = []) →
      (t.has_children = false →
        ∀ p ∈ t.points, point_is_inside_box p t.bounding_box = true) →
      Node.subdivideF fuel crit t = some t' → t'.n_points = t.n_points) ∧
    (∀ (crit : Criteria) (l l' : List Node),
      (∀ x ∈ l, (x.has_children = true → x.points = []) ∧
        (x.has_children = false →
          ∀ p ∈ x.points, point_is_inside_box p x.bounding_box = true)) →
      Node.subdivideChildren fuel crit l = some l' →
      (l'.map Node.n_points).sum = (l.map Node.n_points).sum) := by
  induction fuel with
  | zero =>
    constructor
    · intro crit t t' _ _ hs
      rw [Node.subdivideF] at hs
      exact absurd hs (by simp)
    · intro crit l
      cases l with
      | nil =>
        intro l' _ hs
        rw [Node.subdivideChildren] at hs
        cases hs
        rfl
      | cons a rest =>
        intro l' _ hs
        rw [Node.subdivideChildren] at hs
        rw [Node.subdivideF] at hs
        exact absurd hs (by simp)
  | succ n ih =>
    have hA : ∀ (crit : Criteria) (t t' : Node),
        (t.has_children = true → t.points = []) →
        (t.has_children = false →
          ∀ p ∈ t.points, point_is_inside_box p t.bounding_box = true) →
        Node.subdivideF (n + 1) crit t = some t' → t'.n_points = t.n_points := by
      intro crit t t' h1 h2 hs
      obtain ⟨c, e, ps, hc, ch⟩ := t
      cases hc with
      | true =>
        have hpts : ps = [] := by simpa using h1 rfl
        subst hpts
        by_cases hcond : crit.any (fun criterion => criterion ([] : List Pt)) = true
        · rw [Node.subdivideF_none_of_any_empty crit hcond (n + 1)
            (Node.mk c e [] true ch) rfl] at hs
          exact absurd hs (by simp)
        · rw [Node.subdivideF] at hs
          simp only [Node.points_mk] at hs
          rw [if_neg (by exact fun h => hcond h)] at hs
          cases hs
          rfl
      | false =>
        by_cases hcond : crit.any (fun criterion => criterion ps) = true
        · rw [Node.subdivideF] at hs
          simp only [Node.points_mk, Node.corner_mk, Node.edge_length_mk] at hs
          rw [if_pos hcond] at hs
          have hleaf : ∀ x ∈ Node.standardChildren c e, x.has_children = false :=
            fun x hx => (Node.standardChildren_leaves c e x hx).1
          rw [Node.insert_points_internal_spec c e ps _ ps hleaf] at hs
          simp only [Node.corner_mk, Node.edge_length_mk, Node.points_mk,
            Node.has_children_mk, Node.children_mk] at hs
          set CH2 := (Node.standardChildren c e).map (fun x =>
            Node.mk x.corner x.edge_length
              (x.points ++ ps.filter (fun p => point_is_inside_box p x.bounding_box))
              x.has_children x.children) with hCH2
          cases hsc : Node.subdivideChildren n crit CH2 with
          | none =>
            rw [hsc] at hs
            exact absurd hs (by simp)
          | some cs =>
            rw [hsc] at hs
            have hs' : Node.mk c e [] true cs = t' := by
              injection hs
            cases hs'
            have hch2hyp : ∀ x ∈ CH2, (x.has_children = true → x.points = []) ∧
                (x.has_children = false →
                  ∀ p ∈ x.points, point_is_inside_box p x.bounding_box = true) := by
              intro x hx
              rw [hCH2] at hx
              obtain ⟨k, hk, hkx⟩ := List.mem_map.mp hx
              obtain ⟨hkl, hkp⟩ := Node.standardChildren_leaves c e k hk
              subst hkx
              constructor
              · intro habs
                rw [hkl] at habs
                cases habs
              · intro _ p hp
                simp only [Node.points_mk, hkp, List.nil_append] at hp
                have hbb : (Node.mk k.corner k.edge_length
                    (k.points ++ ps.filter
                      (fun p => point_is_inside_box p k.bounding_box))
                    k.has_children k.children).bounding_box = k.bounding_box := rfl
                rw [hbb]
                exact (List.mem_filter.mp hp).2
            have hsum := ih.2 crit CH2 cs hch2hyp hsc
            have hcount : ∀ p ∈ ps, (Node.standardChildren c e).countP
                (fun x => point_is_inside_box p x.bounding_box) = 1 := by
              intro p hp
              exact standardChildren_countP_one c e p (h2 rfl p hp)
            have hins := Node.n_points_insert_points_internal c e ps
              (Node.standardChildren c e) ps hleaf hcount
            rw [Node.insert_points_internal_spec c e ps _ ps hleaf] at hins
            rw [Node.n_points_mk] at hins
            simp only [if_true] at hins
            rw [← hCH2] at hins
            rw [Node.standardChildren_n_points_zero, Nat.zero_add] at hins
            rw [Node.n_points_mk, Node.n_points_mk]
            simp only [if_true, Bool.false_eq_true, if_false]
            rw [hsum, hins]
        · rw [Node.subdivideF] at hs
          simp only [Node.points_mk] at hs
          rw [if_neg (by exact fun h => hcond h)] at hs
          cases hs
          rfl
    refine ⟨hA, ?_⟩
    intro crit l
    induction l with
    | nil =>
      intro l' _ hs
      rw [Node.subdivideChildren] at hs
      cases hs
      rfl
    | cons a rest ihl =>
      intro l' hhyp hs
      rw [Node.subdivideChildren] at hs
      cases ha : Node.subdivideF (n + 1) crit a with
      | none =>
        rw [ha] at hs
        exact absurd hs (by simp)
      | some a' =>
        cases hrest : Node.subdivideChildren (n + 1) crit rest with
        | none =>
          rw [ha, hrest] at hs
          exact absurd hs (by simp)
        | some rest' =>
          rw [ha, hrest] at hs
          simp only at hs
          cases hs
          have h1 := hA crit a a' (hhyp a (List.mem_cons_self a rest)).1
            (hhyp a (List.mem_cons_self a rest)).2 ha
          have h2 := ihl rest' (fun x hx => hhyp x (List.mem_cons_of_mem a hx)) hrest
          simp only [List.map_cons, List.sum_cons, h1, h2]

/-- C1: for every octree satisfying the structural invariant whose leaf
points lie inside the tree's bounding box, and every criteria list under
which `subdivide` terminates (some fuel suffices), `n_points` is the
same before and after `subdivide`: points are relocated, never lost or
duplicated. -/
theorem Node.subdivide_preserves_n_points (fuel : Nat) (crit : Criteria) (t t' : Node)
    (hinv : t.structInv)
    (hbox : t.has_children = false →
      ∀ p ∈ t.points, point_is_inside_box p t.bounding_box = true)
    (hs : Node.subdivideF fuel crit t = some t') :
    t'.n_points = t.n_points := by
  refine (Node.n_points_subdivide_aux fuel).1 crit t t' ?_ hbox hs
  obtain ⟨c, e, ps, hc, ch⟩ := t
  exact fun h => ((Node.structInv_mk _ _ _ _ _).mp hinv).2.1 h

/-- Witness for C1 at a concrete input: a leaf holding one point inside
its box, with a criterion demanding more than one point, subdivides to
itself with the point count preserved. -/
theorem Node.subdivide_preserves_n_points_witness :
    (Node.mk ⟨0, 0, 0⟩ 2 [⟨1, 1, 1⟩] false []).structInv ∧
      ((Node.mk ⟨0, 0, 0⟩ 2 [⟨1, 1, 1⟩] false []).has_children = false →
        ∀ p ∈ (Node.mk ⟨0, 0, 0⟩ 2 [⟨1, 1, 1⟩] false []).points,
          point_is_inside_box p
            (Node.mk ⟨0, 0, 0⟩ 2 [⟨1, 1, 1⟩] false []).bounding_box = true) ∧
      Node.subdivideF 1 [fun ps => decide (1 < ps.length)]
        (Node.mk ⟨0, 0, 0⟩ 2 [⟨1, 1, 1⟩] false []) =
        some (Node.mk ⟨0, 0, 0⟩ 2 [⟨1, 1, 1⟩] false []) ∧
      (Node.mk ⟨0, 0, 0⟩ 2 [⟨1, 1, 1⟩] false []).n_points =
        (Node.mk ⟨0, 0, 0⟩ 2 [⟨1, 1, 1⟩] false []).n_points := by
  refine ⟨?_, ?_, ?_, ?_⟩
  · rw [Node.structInv_mk]
    simp
  · intro _ p hp
    simp only [Node.points_mk, List.mem_singleton] at hp
    subst hp
    norm_num [point_is_inside_box, Node.bounding_box, Pt.add_def]
  · rw [Node.subdivideF]
    simp
  · exact Node.subdivide_preserves_n_points 1 [fun ps => decide (1 < ps.length)]
      (Node.mk ⟨0, 0, 0⟩ 2 [⟨1, 1, 1⟩] false [])
      (Node.mk ⟨0, 0, 0⟩ 2 [⟨1, 1, 1⟩] false [])
      (by rw [Node.structInv_mk]; simp)
      (by
        intro _ p hp
        simp only [Node.points_mk, List.mem_singleton] at hp
        subst hp
        norm_num [point_is_inside_box, Node.bounding_box, Pt.add_def])
      (by rw [Node.subdivideF]; simp)

/-- C4: on a node in the `Internal` state (eight children, empty local
point set), a terminating `subdivide` call returns the node completely
unchanged — children, points and the whole subtree below; only leaves
can transition.  (If a criterion accepts the node's empty point set the
code would rebuild the children, but then it never terminates.) -/
theorem Node.subdivide_internal_unchanged (fuel : Nat) (crit : Criteria) (t t' : Node)
    (_hhc : t.has_children = true) (hpts : t.points = [])
    (hs : Node.subdivideF fuel crit t = some t') : t' = t := by
  cases fuel with
  | zero =>
    rw [Node.subdivideF] at hs
    exact absurd hs (by simp)
  | succ n =>
    by_cases hcond : crit.any (fun criterion => criterion t.points) = true
    · rw [hpts] at hcond
      rw [Node.subdivideF_none_of_any_empty crit hcond (n + 1) t hpts] at hs
      exact absurd hs (by simp)
    · rw [Node.subdivideF] at hs
      rw [if_neg hcond] at hs
      injection hs with h
      exact h.symm

/-- Witness for C4 at a concrete input: an internal node with the eight
standard children survives a terminating `subdivide` unchanged. -/
theorem Node.subdivide_internal_unchanged_witness :
    (Node.mk ⟨0, 0, 0⟩ 2 [] true (Node.standardChildren ⟨0, 0, 0⟩ 2)).has_children = true ∧
      (Node.mk ⟨0, 0, 0⟩ 2 [] true (Node.standardChildren ⟨0, 0, 0⟩ 2)).points = [] ∧
      Node.subdivideF 1 [fun ps => decide (1 < ps.length)]
        (Node.mk ⟨0, 0, 0⟩ 2 [] true (Node.standardChildren ⟨0, 0, 0⟩ 2)) =
        some (Node.mk ⟨0, 0, 0⟩ 2 [] true (Node.standardChildren ⟨0, 0, 0⟩ 2)) ∧
      (Node.mk ⟨0, 0, 0⟩ 2 [] true (Node.standardChildren ⟨0, 0, 0⟩ 2)) =
        (Node.mk ⟨0, 0, 0⟩ 2 [] true (Node.standardChildren ⟨0, 0, 0⟩ 2)) := by
  refine ⟨rfl, rfl, by rw [Node.subdivideF]; simp, ?_⟩
  exact Node.subdivide_internal_unchanged 1 [fun ps => decide (1 < ps.length)]
    _ _ rfl rfl (by rw [Node.subdivideF]; simp)

theorem Node.structInv_insertPoint (t : Node) (p : Pt) (h : t.structInv) :
    (t.insertPoint p).structInv := by
  induction t using Node.inductionOn with
  | _ c e ps hc ch ihc =>
    rw [Node.structInv_mk] at h
    rw [Node.insertPoint_mk]
    cases hc with
    | true =>
      simp only [if_true]
      rw [Node.structInv_mk]
      refine ⟨by simpa using h.1, h.2.1, ?_⟩
      intro x hx
      obtain ⟨y, hy, hxy⟩ := List.mem_map.mp hx
      subst hxy
      by_cases htest : point_is_inside_box p y.bounding_box
      · rw [if_pos htest]
        exact ihc y hy (h.2.2 y hy)
      · rw [if_neg htest]
        exact h.2.2 y hy
    | false =>
      simp only [Bool.false_eq_true, if_false]
      rw [Node.structInv_mk]
      exact ⟨h.1, by simp, h.2.2⟩

theorem Node.structInv_foldl_insertPoint (ps : List Pt) :
    ∀ t : Node, t.structInv → (ps.foldl Node.insertPoint t).structInv := by
  induction ps with
  | nil => exact fun t h => h
  | cons p rest ih =>
    intro t h
    exact ih (t.insertPoint p) (Node.structInv_insertPoint t p h)

theorem Node.structInv_insert_points (t : Node) (ps : List Pt) (h : t.structInv) :
    (t.insert_points ps).structInv := by
  rw [Node.insert_points]
  by_cases hhc : t.has_children = true
  · rw [if_pos hhc]
    exact Node.structInv_foldl_insertPoint ps t h
  · rw [if_neg hhc]
    obtain ⟨c, e, ps0, hc, ch⟩ := t
    rw [Node.structInv_mk] at h ⊢
    simp only [Node.has_children_mk] at hhc
    simp only [Node.corner_mk, Node.edge_length_mk, Node.points_mk,
      Node.has_children_mk, Node.children_mk]
    exact ⟨h.1, fun hx => absurd hx hhc, h.2.2⟩

theorem Node.structInv_filter (crit : Criteria) (t : Node) (h : t.structInv) :
    (Node.filter crit t).structInv := by
  induction t using Node.inductionOn with
  | _ c e ps hc ch ihc =>
    rw [Node.structInv_mk] at h
    rw [Node.filter_mk]
    cases hc with
    | true =>
      simp only [if_true]
      by_cases hempty : (ch.map (Node.filter crit)).all (fun child => child.n_points == 0)
      · simp only [hempty, if_true]
        rw [Node.structInv_mk]
        refine ⟨by simp, fun _ => h.2.1 rfl, by simp⟩
      · simp only [hempty, Bool.false_eq_true, if_false]
        rw [Node.structInv_mk]
        refine ⟨by simpa using h.1, h.2.1, ?_⟩
        intro x hx
        obtain ⟨y, hy, hxy⟩ := List.mem_map.mp hx
        subst hxy
        exact ihc y hy (h.2.2 y hy)
    | false =>
      simp only [Bool.false_eq_true, if_false]
      by_cases hall : crit.all (fun criterion => criterion ps) = true
      · simp only [hall, if_true]
        rw [Node.structInv_mk]
        exact h
      · rw [if_neg (by exact fun hx => hall hx)]
        rw [Node.structInv_mk]
        exact ⟨h.1, by simp, h.2.2⟩

theorem Node.structInv_map_leaf_points (f : List Pt → List Pt) (t : Node)
    (h : t.structInv) : (Node.map_leaf_points f t).structInv := by
  induction t using Node.inductionOn with
  | _ c e ps hc ch ihc =>
    rw [Node.structInv_mk] at h
    rw [Node.map_leaf_points_mk]
    cases hc with
    | true =>
      simp only [if_true]
      rw [Node.structInv_mk]
      refine ⟨by simpa using h.1, h.2.1, ?_⟩
      intro x hx
      obtain ⟨y, hy, hxy⟩ := List.mem_map.mp hx
      subst hxy
      exact ihc y hy (h.2.2 y hy)
    | false =>
      simp only [Bool.false_eq_true, if_false]
      by_cases hempty : ps.isEmpty
      · simp only [hempty, if_true]
        rw [Node.structInv_mk]
        exact h
      · rw [if_neg (by exact fun hx => hempty hx)]
        rw [Node.structInv_mk]
        exact ⟨h.1, by simp, h.2.2⟩

/-- Mutual-induction core for preservation of the structural invariant
by a terminating `subdivide`. -/
theorem Node.structInv_subdivide_aux (fuel : Nat) :
    (∀ (crit : Criteria) (t t' : Node), t.structInv →
      Node.subdivideF fuel crit t = some t' → t'.structInv) ∧
    (∀ (crit : Criteria) (l l' : List Node), (∀ x ∈ l, x.structInv) →
      Node.subdivideChildren fuel crit l = some l' →
      (∀ x ∈ l', x.structInv) ∧ l'.length = l.length) := by
  induction fuel with
  | zero =>
    constructor
    · intro crit t t' _ hs
      rw [Node.subdivideF] at hs
      exact absurd hs (by simp)
    · intro crit l
      cases l with
      | nil =>
        intro l' _ hs
        rw [Node.subdivideChildren] at hs
        cases hs
        exact ⟨by simp, rfl⟩
      | cons a rest =>
        intro l' _ hs
        rw [Node.subdivideChildren] at hs
        rw [Node.subdivideF] at hs
        exact absurd hs (by simp)
  | succ n ih =>
    have hA : ∀ (crit : Criteria) (t t' : Node), t.structInv →
        Node.subdivideF (n + 1) crit t = some t' → t'.structInv := by
      intro crit t t' hinv hs
      obtain ⟨c, e, ps, hc, ch⟩ := t
      rw [Node.structInv_mk] at hinv
      cases hc with
      | true =>
        have hpts : ps = [] := hinv.2.1 rfl
        subst hpts
        by_cases hcond : crit.any (fun criterion => criterion ([] : List Pt)) = true
        · rw [Node.subdivideF_none_of_any_empty crit hcond (n + 1)
            (Node.mk c e [] true ch) rfl] at hs
          exact absurd hs (by simp)
        · rw [Node.subdivideF] at hs
          simp only [Node.points_mk] at hs
          rw [if_neg (by exact fun h => hcond h)] at hs
          cases hs
          rw [Node.structInv_mk]
          exact hinv
      | false =>
        by_cases hcond : crit.any (fun criterion => criterion ps) = true
        · rw [Node.subdivideF] at hs
          simp only [Node.points_mk, Node.corner_mk, Node.edge_length_mk] at hs
          rw [if_pos hcond] at hs
          have hleaf : ∀ x ∈ Node.standardChildren c e, x.has_children = false :=
            fun x hx => (Node.standardChildren_leaves c e x hx).1
          rw [Node.insert_points_internal_spec c e ps _ ps hleaf] at hs
          simp only [Node.corner_mk, Node.edge_length_mk, Node.points_mk,
            Node.has_children_mk, Node.children_mk] at hs
          set CH2 := (Node.standardChildren c e).map (fun x =>
            Node.mk x.corner x.edge_length
              (x.points ++ ps.filter (fun p => point_is_inside_box p x.bounding_box))
              x.has_children x.children) with hCH2
          cases hsc : Node.subdivideChildren n crit CH2 with
          | none =>
            rw [hsc] at hs
            exact absurd hs (by simp)
          | some cs =>
            rw [hsc] at hs
            have hs' : Node.mk c e [] true cs = t' := by
              injection hs
            cases hs'
            have hch2inv : ∀ x ∈ CH2, x.structInv := by
              intro x hx
              rw [hCH2] at hx
              obtain ⟨k, hk, hkx⟩ := List.mem_map.mp hx
              obtain ⟨hkl, _⟩ := Node.standardChildren_leaves c e k hk
              have hkc := Node.standardChildren_children_nil c e k hk
              subst hkx
              rw [Node.structInv_mk]
              refine ⟨?_, ?_, ?_⟩
              · rw [hkl, hkc]
                simp
              · rw [hkl]
                intro habs
                cases habs
              · rw [hkc]
                simp
            obtain ⟨hcsinv, hcslen⟩ := ih.2 crit CH2 cs hch2inv hsc
            rw [Node.structInv_mk]
            refine ⟨?_, fun _ => rfl, hcsinv⟩
            rw [hcslen, hCH2]
            simp [Node.standardChildren_length]
        · rw [Node.subdivideF] at hs
          simp only [Node.points_mk] at hs
          rw [if_neg (by exact fun h => hcond h)] at hs
          cases hs
          rw [Node.structInv_mk]
          exact hinv
    refine ⟨hA, ?_⟩
    intro crit l
    induction l with
    | nil =>
      intro l' _ hs
      rw [Node.subdivideChildren] at hs
      cases hs
      exact ⟨by simp, rfl⟩
    | cons a rest ihl =>
      intro l' hhyp hs
      rw [Node.subdivideChildren] at hs
      cases ha : Node.subdivideF (n + 1) crit a with
      | none =>
        rw [ha] at hs
        exact absurd hs (by simp)
      | some a' =>
        cases hrest : Node.subdivideChildren (n + 1) crit rest with
        | none =>
          rw [ha, hrest] at hs
          exact absurd hs (by simp)
        | some rest' =>
          rw [ha, hrest] at hs
          simp only at hs
          cases hs
          have h1 := hA crit a a' (hhyp a (List.mem_cons_self a rest)) ha
          have h2 := ihl rest' (fun x hx => hhyp x (List.mem_cons_of_mem a hx)) hrest
          constructor
          · intro x hx
            rcases List.mem_cons.mp hx with hx | hx
            · subst hx
              exact h1
            · exact h2.1 x hx
          · simp [h2.2]

/-- C2: every tree reachable from a freshly constructed node by any
sequence of `insert_points`, terminating `subdivide`, `filter` and
`map_leaf_points` operations satisfies the structural invariant:
`has_children` holds exactly when there are exactly 8 children, and an
internal node's local point set is empty. -/
theorem Node.reachable_structInv (t : Node) (h : t.Reachable) : t.structInv := by
  induction h with
  | init c e =>
    rw [Node.structInv_mk]
    simp
  | insert ps _ ih => exact Node.structInv_insert_points _ ps ih
  | subdiv fuel crit _ hs ih => exact (Node.structInv_subdivide_aux fuel).1 crit _ _ ih hs
  | filt crit _ ih => exact Node.structInv_filter crit _ ih
  | mapl f _ ih => exact Node.structInv_map_leaf_points f _ ih

/-- Witness for C2 at a concrete input: a freshly constructed node is
reachable and satisfies the structural invariant. -/
theorem Node.reachable_structInv_witness :
    (Node.mk ⟨0, 0, 0⟩ 1 [] false []).Reachable ∧
      (Node.mk ⟨0, 0, 0⟩ 1 [] false []).structInv :=
  ⟨Node.Reachable.init ⟨0, 0, 0⟩ 1,
    Node.reachable_structInv _ (Node.Reachable.init ⟨0, 0, 0⟩ 1)⟩

/-- A point inside a standard child's box is inside the parent's box. -/
theorem insideChild_insideParent (c : Pt) (e : ℚ) (p : Pt) (x : Node)
    (hx : x ∈ Node.standardChildren c e)
    (hp : point_is_inside_box p x.bounding_box = true) :
    point_is_inside_box p (c, c + ⟨e, e, e⟩) = true := by
  simp only [Node.standardChildren, List.mem_cons, List.not_mem_nil, or_false] at hx
  rcases hx with h | h | h | h | h | h | h | h <;> subst h <;>
    simp only [point_is_inside_box, Node.bounding_box, Node.corner_mk,
      Node.edge_length_mk, Pt.add_def, Bool.and_eq_true, decide_eq_true_eq] at hp ⊢ <;>
    obtain ⟨⟨⟨h1, h2⟩, h3, h4⟩, h5, h6⟩ := hp <;>
    refine ⟨⟨⟨?_, ?_⟩, ?_, ?_⟩, ?_, ?_⟩ <;> linarith

/-- C3 (amended): inserting a point outside the tree's bounding region
into an octree whose root is already subdivided (with the standard child
geometry) stores nothing — the tree, its `n_points` and its
`get_points` are unchanged.  (On a LEAF root the code appends the point
with no geometric check, see the counterexample.) -/
theorem Node.insert_outside_internal_unchanged (t : Node) (p : Pt)
    (hhc : t.has_children = true)
    (hshape : t.children.map (fun x => (x.corner, x.edge_length)) =
      (Node.standardChildren t.corner t.edge_length).map
        (fun x => (x.corner, x.edge_length)))
    (hout : point_is_inside_box p t.bounding_box = false) :
    t.insert_points [p] = t ∧ (t.insert_points [p]).n_points = t.n_points ∧
      (t.insert_points [p]).get_points = t.get_points := by
  have hunch : t.insert_points [p] = t := by
    obtain ⟨c, e, ps, hc, ch⟩ := t
    simp only [Node.has_children_mk] at hhc
    subst hhc
    simp only [Node.children_mk, Node.corner_mk, Node.edge_length_mk] at hshape
    rw [Node.insert_points]
    simp only [Node.has_children_mk, if_true, List.foldl_cons, List.foldl_nil]
    rw [Node.insertPoint_mk]
    simp only [if_true, Node.mk.injEq, true_and]
    have hnone : ∀ x ∈ ch, point_is_inside_box p x.bounding_box = false := by
      intro x hx
      have hfx : (x.corner, x.edge_length) ∈
          (Node.standardChildren c e).map (fun x => (x.corner, x.edge_length)) := by
        rw [← hshape]
        exact List.mem_map.mpr ⟨x, hx, rfl⟩
      obtain ⟨k, hk, hkx⟩ := List.mem_map.mp hfx
      by_contra habs
      have hin : point_is_inside_box p x.bounding_box = true := by
        cases hbb : point_is_inside_box p x.bounding_box
        · exact absurd hbb habs
        · rfl
      have hbbeq : x.bounding_box = k.bounding_box := by
        rw [Node.bounding_box, Node.bounding_box]
        rw [show x.corner = k.corner from (Prod.mk.injEq _ _ _ _ ▸ hkx :
          k.corner = x.corner ∧ k.edge_length = x.edge_length).1.symm]
        rw [show x.edge_length = k.edge_length from (Prod.mk.injEq _ _ _ _ ▸ hkx :
          k.corner = x.corner ∧ k.edge_length = x.edge_length).2.symm]
      rw [hbbeq] at hin
      have := insideChild_insideParent c e p k hk hin
      rw [show point_is_inside_box p (c, c + ⟨e, e, e⟩) =
        point_is_inside_box p (Node.mk c e ps true ch).bounding_box from rfl] at this
      rw [hout] at this
      cases this
    rw [List.map_congr_left (fun x hx => by rw [hnone x hx])]
    simp
  exact ⟨hunch, by rw [hunch], by rw [hunch]⟩

/-- Witness for C3's amended theorem at a concrete input: the point
`(5,5,5)` is outside the subdivided box `[0,2)³` and its insertion
leaves the tree unchanged. -/
theorem Node.insert_outside_internal_unchanged_witness :
    (Node.mk ⟨0, 0, 0⟩ 2 [] true (Node.standardChildren ⟨0, 0, 0⟩ 2)).has_children = true ∧
      ((Node.mk ⟨0, 0, 0⟩ 2 [] true
        (Node.standardChildren ⟨0, 0, 0⟩ 2)).children.map
          (fun x => (x.corner, x.edge_length)) =
        (Node.standardChildren ⟨0, 0, 0⟩ 2).map (fun x => (x.corner, x.edge_length))) ∧
      point_is_inside_box ⟨5, 5, 5⟩
        (Node.mk ⟨0, 0, 0⟩ 2 [] true
          (Node.standardChildren ⟨0, 0, 0⟩ 2)).bounding_box = false ∧
      (Node.mk ⟨0, 0, 0⟩ 2 [] true
        (Node.standardChildren ⟨0, 0, 0⟩ 2)).insert_points [⟨5, 5, 5⟩] =
        Node.mk ⟨0, 0, 0⟩ 2 [] true (Node.standardChildren ⟨0, 0, 0⟩ 2) := by
  refine ⟨rfl, rfl, ?_, ?_⟩
  · norm_num [point_is_inside_box, Node.bounding_box, Pt.add_def]
  · exact (Node.insert_outside_internal_unchanged
      (Node.mk ⟨0, 0, 0⟩ 2 [] true (Node.standardChildren ⟨0, 0, 0⟩ 2)) ⟨5, 5, 5⟩
      rfl rfl
      (by norm_num [point_is_inside_box, Node.bounding_box, Pt.add_def])).1

/-- C6: for every tree satisfying the structural invariant and every
list of (pure) filtering criteria, applying `filter` twice yields
exactly the same tree — same structure and same points at every leaf —
as applying it once. -/
theorem Node.filter_idempotent (crit : Criteria) (t : Node) (hinv : t.structInv) :
    Node.filter crit (Node.filter crit t) = Node.filter crit t := by
  induction t using Node.inductionOn with
  | _ c e ps hc ch ihc =>
    rw [Node.structInv_mk] at hinv
    cases hc with
    | false =>
      rw [Node.filter_mk]
      simp only [Bool.false_eq_true, if_false]
      by_cases hall : crit.all (fun criterion => criterion ps) = true
      · rw [if_pos hall, Node.filter_mk]
        simp only [Bool.false_eq_true, if_false]
        rw [if_pos hall]
      · rw [if_neg hall, Node.filter_mk]
        simp only [Bool.false_eq_true, if_false]
        by_cases hall2 : crit.all (fun criterion => criterion ([] : List Pt)) = true
        · rw [if_pos hall2]
        · rw [if_neg hall2]
    | true =>
      have hps : ps = [] := hinv.2.1 rfl
      subst hps
      rw [Node.filter_mk]
      simp only [if_true]
      have hcs : (ch.map (Node.filter crit)).map (Node.filter crit) =
          ch.map (Node.filter crit) := by
        rw [List.map_map]
        exact List.map_congr_left
          (fun x hx => ihc x hx (hinv.2.2 x hx))
      by_cases hzero :
          ((ch.map (Node.filter crit)).all (fun child => child.n_points == 0)) = true
      · rw [if_pos hzero, Node.filter_mk]
        simp
      · rw [if_neg hzero, Node.filter_mk]
        simp only [if_true]
        rw [hcs]
        rw [if_neg hzero]

/-- Witness for C6 at a concrete input: filtering a one-point leaf twice
with a length criterion equals filtering it once. -/
theorem Node.filter_idempotent_witness :
    (Node.mk ⟨0, 0, 0⟩ 1 [⟨0, 0, 0⟩] false []).structInv ∧
      Node.filter [fun ps => decide (ps.length ≤ 1)]
        (Node.filter [fun ps => decide (ps.length ≤ 1)]
          (Node.mk ⟨0, 0, 0⟩ 1 [⟨0, 0, 0⟩] false [])) =
      Node.filter [fun ps => decide (ps.length ≤ 1)]
        (Node.mk ⟨0, 0, 0⟩ 1 [⟨0, 0, 0⟩] false []) := by
  constructor
  · rw [Node.structInv_mk]
    simp
  · exact Node.filter_idempotent [fun ps => decide (ps.length ≤ 1)]
      (Node.mk ⟨0, 0, 0⟩ 1 [⟨0, 0, 0⟩] false [])
      (by rw [Node.structInv_mk]; simp)

theorem mem_dedupFirst (l : List ℤ) (q : ℤ) : q ∈ dedupFirst l ↔ q ∈ l := by
  induction l using dedupFirst.induct with
  | case1 => rw [dedupFirst]
  | case2 a as ih =>
    rw [dedupFirst]
    simp only [List.mem_cons, ih, List.mem_filter]
    constructor
    · rintro (h | ⟨h, _⟩)
      · exact Or.inl h
      · exact Or.inr h
    · rintro (h | h)
      · exact Or.inl h
      · by_cases hqa : q = a
        · exact Or.inl hqa
        · exact Or.inr ⟨h, by simpa using hqa⟩

theorem nodup_dedupFirst (l : List ℤ) : (dedupFirst l).Nodup := by
  induction l using dedupFirst.induct with
  | case1 =>
    rw [dedupFirst]
    exact List.nodup_nil
  | case2 a as ih =>
    rw [dedupFirst]
    refine List.Nodup.cons ?_ ih
    intro habs
    have := (mem_dedupFirst _ a).mp habs
    simp at this

theorem filterByPose_append (p : ℤ) (a b : List PPoint) :
    filterByPose p (a ++ b) = filterByPose p a ++ filterByPose p b := by
  simp [filterByPose, List.filter_append]

theorem filterByPose_withPose (p q : ℤ) (s : List Pt) :
    filterByPose p (withPose q s) = if q = p then withPose q s else [] := by
  by_cases h : q = p
  · subst h
    simp [filterByPose, withPose, List.filter_map]
    induction s with
    | nil => rfl
    | cons a s ih =>
      simp_all [withPose]
  · rw [if_neg h]
    simp only [filterByPose, withPose, List.filter_map]
    have : (fun r : Pt => (((⟨r, q⟩ : PPoint).pose == p) : Bool)) = fun _ => false := by
      funext r
      simpa using h
    rw [show ((fun r : PPoint => r.pose == p) ∘ fun r : Pt => (⟨r, q⟩ : PPoint)) =
      fun r : Pt => (((⟨r, q⟩ : PPoint).pose == p) : Bool) from rfl, this]
    simp

theorem foldl_append_flatten {α β} (g : β → List α) (qs : List β) (acc : List α) :
    qs.foldl (fun a q => a ++ g q) acc = acc ++ (qs.map g).flatten := by
  induction qs generalizing acc with
  | nil => simp
  | cons q rest ih =>
    simp only [List.foldl_cons, List.map_cons, List.flatten_cons, ih,
      List.append_assoc]

theorem filterByPose_flatten_not_mem (p : ℤ) (seg : ℤ → List PPoint) (qs : List ℤ)
    (hseg : ∀ q, filterByPose p (seg q) = if q = p then seg q else [])
    (hnm : p ∉ qs) : filterByPose p ((qs.map seg).flatten) = [] := by
  induction qs with
  | nil => rfl
  | cons q rest ih =>
    simp only [List.map_cons, List.flatten_cons, filterByPose_append]
    rw [hseg q,
      if_neg (fun h => hnm (by rw [← h]; exact List.mem_cons_self q rest)),
      ih (fun h => hnm (List.mem_cons_of_mem q h))]
    rfl

theorem filterByPose_flatten_single (p : ℤ) (seg : ℤ → List PPoint) (qs : List ℤ)
    (hseg : ∀ q, filterByPose p (seg q) = if q = p then seg q else [])
    (hmem : p ∈ qs) (hnd : qs.Nodup) :
    filterByPose p ((qs.map seg).flatten) = seg p := by
  induction qs with
  | nil => cases hmem
  | cons q rest ih =>
    simp only [List.map_cons, List.flatten_cons, filterByPose_append]
    by_cases hq : q = p
    · subst hq
      rw [hseg q, if_pos rfl,
        filterByPose_flatten_not_mem q seg rest hseg (List.Nodup.not_mem hnd)]
      simp
    · rw [hseg q, if_neg hq,
        ih (List.mem_of_ne_of_mem (fun h => hq h.symm) hmem) (List.Nodup.of_cons hnd)]
      rfl

/-- C7: in the multi-pose variant, after `map_leaf_points f` on a
non-empty leaf, the points tagged with a pose `p` occurring in the leaf
are exactly `f` applied to the original pose-`p` points (poses
stripped), re-tagged with `p`: the function is applied independently per
pose group and no point moves between pose groups. -/
theorem MPNode.map_leaf_points_per_pose (f : List Pt → List Pt) (t : MPNode) (p : ℤ)
    (hleaf : t.has_children = false) (hne : t.points ≠ [])
    (hp : p ∈ t.points.map PPoint.pose) :
    filterByPose p (MPNode.map_leaf_points f t).points =
      withPose p (f (withoutPoses (filterByPose p t.points))) := by
  obtain ⟨c, e, ps, hc, ch⟩ := t
  simp only [MPNode.mp_has_children_mk] at hleaf
  subst hleaf
  simp only [MPNode.mp_points_mk] at hne hp ⊢
  rw [MPNode.mp_map_leaf_points_mk]
  simp only [Bool.false_eq_true, if_false]
  have hempty : ¬ps.isEmpty = true := by
    simpa [List.isEmpty_iff] using hne
  rw [if_neg hempty]
  simp only [MPNode.mp_points_mk]
  have hstep : (fun (acc : List PPoint) (q : ℤ) =>
      if (filterByPose q ps).isEmpty then acc
      else acc ++ withPose q (f (withoutPoses (filterByPose q ps)))) =
      fun acc q => acc ++
        (if (filterByPose q ps).isEmpty then []
         else withPose q (f (withoutPoses (filterByPose q ps)))) := by
    funext acc q
    by_cases hg : (filterByPose q ps).isEmpty
    · simp [hg]
    · simp [hg]
  rw [hstep, foldl_append_flatten]
  simp only [List.nil_append]
  have hseg : ∀ q, filterByPose p
      (if (filterByPose q ps).isEmpty then []
       else withPose q (f (withoutPoses (filterByPose q ps)))) =
      if q = p then
        (if (filterByPose q ps).isEmpty then []
         else withPose q (f (withoutPoses (filterByPose q ps))))
      else [] := by
    intro q
    by_cases hg : (filterByPose q ps).isEmpty
    · by_cases hq : q = p
      · rw [if_pos hg, if_pos hq]
        rfl
      · rw [if_pos hg, if_neg hq]
        rfl
    · rw [if_neg hg, filterByPose_withPose]
  rw [filterByPose_flatten_single p _ _ hseg
    ((mem_dedupFirst _ p).mpr hp) (nodup_dedupFirst _)]
  obtain ⟨r, hr, hpr⟩ := List.mem_map.mp hp
  have hmemf : r ∈ filterByPose p ps :=
    List.mem_filter.mpr ⟨hr, by simp [hpr]⟩
  have hgrp : ¬(filterByPose p ps).isEmpty = true := by
    simp only [List.isEmpty_iff]
    exact List.ne_nil_of_mem hmemf
  rw [if_neg hgrp]

/-- Witness for C7 at a concrete input: a leaf holding points of poses 5
and 7, transformed with the identity, keeps the pose-5 group exactly. -/
theorem MPNode.map_leaf_points_per_pose_witness :
    (MPNode.mk ⟨0, 0, 0⟩ 1 [⟨⟨0, 0, 0⟩, 5⟩, ⟨⟨1, 1, 1⟩, 7⟩] false []).has_children =
        false ∧
      (MPNode.mk ⟨0, 0, 0⟩ 1 [⟨⟨0, 0, 0⟩, 5⟩, ⟨⟨1, 1, 1⟩, 7⟩] false []).points ≠ [] ∧
      (5 : ℤ) ∈ (MPNode.mk ⟨0, 0, 0⟩ 1 [⟨⟨0, 0, 0⟩, 5⟩, ⟨⟨1, 1, 1⟩, 7⟩]
        false []).points.map PPoint.pose ∧
      filterByPose 5 (MPNode.map_leaf_points (fun s => s)
          (MPNode.mk ⟨0, 0, 0⟩ 1 [⟨⟨0, 0, 0⟩, 5⟩, ⟨⟨1, 1, 1⟩, 7⟩] false [])).points =
        withPose 5 ((fun s => s) (withoutPoses (filterByPose 5
          (MPNode.mk ⟨0, 0, 0⟩ 1
            [⟨⟨0, 0, 0⟩, 5⟩, ⟨⟨1, 1, 1⟩, 7⟩] false []).points))) := by
  refine ⟨rfl, by simp, by simp, ?_⟩
  exact MPNode.map_leaf_points_per_pose (fun s => s)
    (MPNode.mk ⟨0, 0, 0⟩ 1 [⟨⟨0, 0, 0⟩, 5⟩, ⟨⟨1, 1, 1⟩, 7⟩] false []) 5
    rfl (by simp) (by simp)

theorem MPNode.insertPoint_has_children (t : MPNode) (p : PPoint) :
    (t.insertPoint p).has_children = t.has_children := by
  obtain ⟨c, e, ps, hc, ch⟩ := t
  rw [MPNode.mp_insertPoint_mk]
  cases hc with
  | true => rfl
  | false => rfl

theorem MPNode.foldl_insertPoint_has_children (ps : List PPoint) :
    ∀ t : MPNode, (ps.foldl MPNode.insertPoint t).has_children = t.has_children := by
  induction ps with
  | nil => exact fun t => rfl
  | cons p rest ih =>
    intro t
    rw [List.foldl_cons, ih (t.insertPoint p), MPNode.insertPoint_has_children]

theorem MPNode.insert_points_has_children (t : MPNode) (ps : List PPoint) :
    (t.insert_points ps).has_children = t.has_children := by
  rw [MPNode.insert_points]
  by_cases hhc : t.has_children = true
  · rw [if_pos hhc]
    exact MPNode.foldl_insertPoint_has_children ps t
  · rw [if_neg hhc]
    rfl

/-- C10: in the multi-pose variant, the subdivision decision of a leaf
is a function of the node's entire point set with the pose tags
stripped, evaluated once per node (`criterion(self._points.without_poses())`),
never separately per pose: the leaf stays unchanged under a
`subdivide` call exactly when no criterion accepts the combined
untagged cloud. -/
theorem MPNode.subdivide_decision_untagged (fuel : Nat) (crit : Criteria) (t : MPNode)
    (hleaf : t.has_children = false) :
    MPNode.subdivideF (fuel + 1) crit t = some t ↔
      crit.any (fun criterion => criterion (withoutPoses t.points)) = false := by
  constructor
  · intro hs
    cases hcond : crit.any (fun criterion => criterion (withoutPoses t.points)) with
    | false => rfl
    | true =>
      rw [MPNode.subdivideF] at hs
      rw [if_pos hcond] at hs
      obtain ⟨cs, _, hgt⟩ := Option.map_eq_some'.mp hs
      have hhc := congrArg MPNode.has_children hgt
      simp only [MPNode.mp_has_children_mk] at hhc
      rw [MPNode.insert_points_has_children] at hhc
      simp only [MPNode.mp_has_children_mk] at hhc
      rw [hleaf] at hhc
      cases hhc
  · intro hcond
    rw [MPNode.subdivideF, hcond]
    simp

/-- Witness for C10 at a concrete input: a one-point leaf with a
criterion demanding more than one (untagged) point does not split. -/
theorem MPNode.subdivide_decision_untagged_witness :
    (MPNode.mk ⟨0, 0, 0⟩ 1 [⟨⟨0, 0, 0⟩, 5⟩] false []).has_children = false ∧
      (MPNode.subdivideF 1 [fun s => decide (1 < s.length)]
          (MPNode.mk ⟨0, 0, 0⟩ 1 [⟨⟨0, 0, 0⟩, 5⟩] false []) =
        some (MPNode.mk ⟨0, 0, 0⟩ 1 [⟨⟨0, 0, 0⟩, 5⟩] false []) ↔
      List.any [fun s => decide (1 < s.length)]
          (fun criterion => criterion (withoutPoses
            (MPNode.mk ⟨0, 0, 0⟩ 1 [⟨⟨0, 0, 0⟩, 5⟩] false []).points)) = false) :=
  ⟨rfl, MPNode.subdivide_decision_untagged 0 [fun s => decide (1 < s.length)]
    (MPNode.mk ⟨0, 0, 0⟩ 1 [⟨⟨0, 0, 0⟩, 5⟩] false []) rfl⟩

end Octreelib
